import Mathlib

/-!
# Formal model of `binary_heap.hpp`

A shallow embedding of the templated C++ class `binary_heap<T>` instantiated
at `T = int` (values modelled as `Int`, with `std::numeric_limits<int>::max()`
as the concrete sentinel `2147483647`).

The C++ object state is the triple `(_sizeMax, _size, _heap)`; `_heap` is a
`std::vector<T>` modelled as a `List Int`.  Reads `_heap[i]` are modelled by
`List.getD _ i 0` (in every execution analysed by a positive theorem below the
reads are in bounds, so the default is never the source of a conclusion) and
writes by `List.set` (a no-op out of bounds, matching the fact that such a
write would be undefined behaviour in the C++).

The loops of `sift_up` and `sift_down` are modelled with an explicit fuel
parameter; every call site passes enough fuel for the fuel never to run out
(the loops strictly advance the index towards `0` resp. past `size`).
-/

namespace binary_heap

/-- `std::swap(_heap[i], _heap[j])`. -/
def swapL (a : List Int) (i j : ℕ) : List Int :=
  (a.set i (a.getD j 0)).set j (a.getD i 0)

/-- `parent(index)`: `(index-1) / 2`.  For `index = 0` the C++ computes
`(0-1)/2 = 0` in truncating `int` division, which agrees with the `ℕ`
subtraction-division here. -/
def par (i : ℕ) : ℕ := (i - 1) / 2

/-- `sift_up(index)`: while `index > 0` and `_heap[index] > _heap[parent(index)]`,
swap with the parent and move to the parent.  First argument is fuel
(sufficient whenever `index < fuel`). -/
def sift_up : ℕ → List Int → ℕ → List Int
  | 0, a, _ => a
  | fuel + 1, a, index =>
    if 0 < index ∧ a.getD (par index) 0 < a.getD index 0 then
      sift_up fuel (swapL a (par index) index) (par index)
    else a

/-- The `maxIndex` computed by one pass of `sift_down(index)` on a heap of
current size `sz`, as written in the source: start from `index`, move to
`child_l = 2*index+1` if `child_l <= size()` (note `≤`, not `<`: the source
compares the child index with `size()` inclusively, so the slot at index
`size()` — one past the live range — takes part) and `_heap[child_l] >
_heap[maxIndex]`, then likewise for `child_r = 2*index+2`. -/
def sdTarget (sz : ℕ) (a : List Int) (index : ℕ) : ℕ :=
  if 2 * index + 2 ≤ sz ∧
      a.getD (if 2 * index + 1 ≤ sz ∧ a.getD index 0 < a.getD (2 * index + 1) 0
        then 2 * index + 1 else index) 0 < a.getD (2 * index + 2) 0
  then 2 * index + 2
  else if 2 * index + 1 ≤ sz ∧ a.getD index 0 < a.getD (2 * index + 1) 0
    then 2 * index + 1 else index

/-- `sift_down(index)`: if `maxIndex` differs from `index`, swap the two slots
and recurse at `maxIndex`.  First argument is fuel (sufficient whenever
`sz + 2 ≤ fuel + index`). -/
def sift_down : ℕ → ℕ → List Int → ℕ → List Int
  | 0, _, a, _ => a
  | fuel + 1, sz, a, index =>
    if index ≠ sdTarget sz a index then
      sift_down fuel sz (swapL a index (sdTarget sz a index)) (sdTarget sz a index)
    else a

/-- The indices `i` for which `sift_down` evaluates `_heap[i]`, mirroring the
source's short-circuit evaluation order. -/
def sift_down_reads : ℕ → ℕ → List Int → ℕ → List ℕ
  | 0, _, _, _ => []
  | fuel + 1, sz, a, index =>
    let childL := 2 * index + 1
    let childR := 2 * index + 2
    let r1 := if childL ≤ sz then [childL, index] else []
    let max1 := if childL ≤ sz ∧ a.getD index 0 < a.getD childL 0 then childL else index
    let r2 := if childR ≤ sz then [childR, max1] else []
    let max2 := if childR ≤ sz ∧ a.getD max1 0 < a.getD childR 0 then childR else max1
    if index ≠ max2 then
      r1 ++ r2 ++ [index, max2] ++ sift_down_reads fuel sz (swapL a index max2) max2
    else r1 ++ r2

/-- The state of a `binary_heap<int>` object: `_sizeMax`, `_size`, `_heap`. -/
structure State where
  sizeMax : ℕ
  size : ℕ
  heap : List Int
  deriving Repr, DecidableEq

/-- `binary_heap(size_t sizeMax)`: empty heap, vector of `sizeMax`
value-initialised (zero) ints. -/
def mkHeap (sizeMax : ℕ) : State :=
  ⟨sizeMax, 0, List.replicate sizeMax 0⟩

/-- `top()`: returns `_heap[0]`. -/
def top (h : State) : Int := h.heap.getD 0 0

/-- `extract_top()`: save `_heap[0]`, overwrite it with `_heap[size()-1]`,
decrement `_size`, `sift_down(0)`, return the saved value. -/
def extract_top (h : State) : Int × State :=
  let t := h.heap.getD 0 0
  let a := h.heap.set 0 (h.heap.getD (h.size - 1) 0)
  let sz := h.size - 1
  (t, ⟨h.sizeMax, sz, sift_down (sz + 2) sz a 0⟩)

/-- The one runtime error the class can throw. -/
inductive Err where
  | full
  deriving Repr, DecidableEq

/-- `insert(value)`: throw if `full()` (i.e. `size() == _sizeMax`), else
increment `_size`, write at `size()-1`, `sift_up(size()-1)`.  The `Option Err`
component records whether `std::runtime_error` was thrown; on a throw the
state is returned as it was at the throw point. -/
def insert (h : State) (v : Int) : Option Err × State :=
  if h.size = h.sizeMax then (some Err.full, h)
  else
    let sz := h.size + 1
    let a := h.heap.set (sz - 1) v
    (none, ⟨h.sizeMax, sz, sift_up sz a (sz - 1)⟩)

/-- `std::numeric_limits<int>::max()`. -/
def INT_MAX : Int := 2147483647

/-- `remove(index)`: overwrite `_heap[index]` with the sentinel
`std::numeric_limits<T>::max()`, `sift_up(index)`, then `extract_top()`. -/
def remove (h : State) (index : ℕ) : State :=
  let a := h.heap.set index INT_MAX
  let h2 : State := ⟨h.sizeMax, h.size, sift_up (index + 1) a index⟩
  (extract_top h2).2

/-- `change_priority(index, priority)`: save the old value, overwrite, then
`sift_up(index)` if the new value is greater, else `sift_down(index)`. -/
def change_priority (h : State) (index : ℕ) (priority : Int) : State :=
  let old := h.heap.getD index 0
  let a := h.heap.set index priority
  if old < priority then ⟨h.sizeMax, h.size, sift_up (index + 1) a index⟩
  else ⟨h.sizeMax, h.size, sift_down (h.size + 2) h.size a index⟩

/-- The scan loop of `find`: `i` is the loop counter, the second argument the
remaining iteration count `size() - i`. -/
def findFrom (h : State) (v : Int) : ℕ → ℕ → Int
  | _, 0 => -1
  | i, k + 1 => if h.heap.getD i 0 = v then (i : Int) else findFrom h v (i + 1) k

/-- `find(value)`: linear scan of `[0, size())`, returning the first index
holding `value`, else `-1`. -/
def find (h : State) (v : Int) : Int := findFrom h v 0 h.size

/-- `empty()`: `size() == 0`. -/
def empty (h : State) : Bool := h.size == 0

/-- `full()`: `size() == _sizeMax`. -/
def full (h : State) : Bool := h.size == h.sizeMax

/-- `size()`. -/
def sizeOfHeap (h : State) : ℕ := h.size

/-- The loop of `build_heap`: `for (i = size/2; i >= 0; i--) sift_down(i)`. -/
def buildFrom (sz : ℕ) (a : List Int) : ℕ → List Int
  | 0 => sift_down (sz + 2) sz a 0
  | i + 1 => buildFrom sz (sift_down (sz + 2) sz a (i + 1)) i

/-- `build_heap(v)` / the constructor `binary_heap(const std::vector<T>&)`:
`_heap = v`, `_sizeMax = _size = v.size()`, then sift every index from
`size/2` down to `0`. -/
def build_heap (v : List Int) : State :=
  ⟨v.length, v.length, buildFrom v.length v (v.length / 2)⟩

/-- The indices read by the `build_heap` loop. -/
def buildFrom_reads (sz : ℕ) (a : List Int) : ℕ → List ℕ
  | 0 => sift_down_reads (sz + 2) sz a 0
  | i + 1 =>
    sift_down_reads (sz + 2) sz a (i + 1) ++
      buildFrom_reads sz (sift_down (sz + 2) sz a (i + 1)) i

/-- The max-heap invariant over the live range, in the parent form:
every live non-root element is `≤` its parent. -/
def Inv (sz : ℕ) (a : List Int) : Prop :=
  ∀ c, 0 < c → c < sz → a.getD c 0 ≤ a.getD (par c) 0

/-- The live range of the heap: the first `size()` slots of the vector. -/
def live (h : State) : List Int := h.heap.take h.size

/-- Well-formedness plus the max-heap invariant: the vector length is the
capacity, the count is within it, and the live range is max-heap ordered. -/
def Good (h : State) : Prop :=
  h.heap.length = h.sizeMax ∧ h.size ≤ h.sizeMax ∧ Inv h.size h.heap

/-- Insert a list of values left to right. -/
def insertAll (h : State) (vs : List Int) : State :=
  vs.foldl (fun h v => (insert h v).2) h

/-- Call `extract_top` `n` times, collecting the returned values in order. -/
def extractN : State → ℕ → List Int × State
  | h, 0 => ([], h)
  | h, n + 1 =>
    let p := extract_top h
    let q := extractN p.2 n
    (p.1 :: q.1, q.2)

/-! ### General-`int`-index variants

`remove` and `change_priority` take an `int index` in the source and perform
no bounds check; the variants below keep the index as `Int` (reads out of
range yield the model default, writes out of range are no-ops, matching that
the C++ behaviour there is undefined rather than an exception) and pair every
public operation with the `Option Err` it can throw — which is `none` for all
of them except `insert`. -/

/-- `_heap[i]` for a possibly negative `int` index. -/
def getI (a : List Int) (i : Int) : Int :=
  if 0 ≤ i then a.getD i.toNat 0 else 0

/-- `_heap[i] = v` for a possibly negative `int` index. -/
def setI (a : List Int) (i : Int) (v : Int) : List Int :=
  if 0 ≤ i then a.set i.toNat v else a

/-- `std::swap(_heap[i], _heap[j])` for `int` indices. -/
def swapI (a : List Int) (i j : Int) : List Int :=
  setI (setI a i (getI a j)) j (getI a i)

/-- `(index-1) / 2` in C++ `int` division (truncation towards zero). -/
def parI (i : Int) : Int := (i - 1).tdiv 2

/-- `sift_up` on an `int` index (fuel-driven loop). -/
def sift_upI : ℕ → List Int → Int → List Int
  | 0, a, _ => a
  | fuel + 1, a, index =>
    if 0 < index ∧ getI a (parI index) < getI a index then
      sift_upI fuel (swapI a (parI index) index) (parI index)
    else a

/-- `sift_down` on an `int` index (fuel-driven recursion), with the source's
inclusive guards `child <= (int)size()`. -/
def sift_downI : ℕ → ℕ → List Int → Int → List Int
  | 0, _, a, _ => a
  | fuel + 1, sz, a, index =>
    let childL := 2 * index + 1
    let childR := 2 * index + 2
    let max1 := if childL ≤ (sz : Int) ∧ getI a index < getI a childL then childL else index
    let max2 := if childR ≤ (sz : Int) ∧ getI a max1 < getI a childR then childR else max1
    if index ≠ max2 then sift_downI fuel sz (swapI a index max2) max2 else a

/-- `remove(int index)` with its thrown-error slot: the body contains no
`throw`, so the error is always `none`. -/
def remove_run (h : State) (index : Int) : Option Err × State :=
  let a := setI h.heap index INT_MAX
  let h2 : State := ⟨h.sizeMax, h.size, sift_upI (index.toNat + 1) a index⟩
  (none, (extract_top h2).2)

/-- `change_priority(int index, T priority)` with its thrown-error slot:
always `none`. -/
def change_priority_run (h : State) (index : Int) (priority : Int) : Option Err × State :=
  let old := getI h.heap index
  let a := setI h.heap index priority
  (none,
    if old < priority then ⟨h.sizeMax, h.size, sift_upI (index.toNat + 1) a index⟩
    else ⟨h.sizeMax, h.size, sift_downI (h.size + 2) h.size a index⟩)

/-- `top()` with its thrown-error slot: always `none` (no emptiness check). -/
def top_run (h : State) : Option Err × Int := (none, h.heap.getD 0 0)

/-- `extract_top()` with its thrown-error slot: always `none`
(no emptiness check). -/
def extract_top_run (h : State) : Option Err × (Int × State) := (none, extract_top h)

/-- `find(value)` with its thrown-error slot: always `none`. -/
def find_run (h : State) (v : Int) : Option Err × Int := (none, find h v)

end binary_heap

namespace binary_heap

/-- The end state of the C1 counterexample trace:
`binary_heap(4)`; `insert(0)`; `insert(1)`; `insert(2)`; `insert(2)`;
`remove(3)`; `extract_top()`; `insert(0)`; `change_priority(0, 0)`. -/
def c1Trace : State :=
  let h0 := mkHeap 4
  let h1 := (insert h0 0).2
  let h2 := (insert h1 1).2
  let h3 := (insert h2 2).2
  let h4 := (insert h3 2).2
  let h5 := remove h4 3
  let h6 := (extract_top h5).2
  let h7 := (insert h6 0).2
  change_priority h7 0 0

/-- The state reached by `binary_heap(2)`; `insert(5)`; `insert(4)`;
`extract_top()`: live range `[4]`, with the stale copy `4` left at slot `1`
(one past the live range) by `extract_top`. -/
def c4Pre : State :=
  (extract_top (insert (insert (mkHeap 2) 5).2 4).2).2

/-- The C4 counterexample end state: `change_priority(0, 3)` applied to
`c4Pre`. -/
def c4Trace : State := change_priority c4Pre 0 3

end binary_heap

namespace binary_heap

/-! ### List access helpers -/

theorem getD_set_eq (a : List Int) {i : ℕ} (v : Int) (h : i < a.length) :
    (a.set i v).getD i 0 = v := by
  rw [List.getD_eq_getElem _ _ (by simpa using h)]
  exact List.getElem_set_self _

theorem getD_set_ne (a : List Int) {i j : ℕ} (hij : i ≠ j) (v : Int) :
    (a.set i v).getD j 0 = a.getD j 0 := by
  by_cases hj : j < a.length
  · rw [List.getD_eq_getElem _ _ (by simpa using hj), List.getD_eq_getElem _ _ hj]
    exact List.getElem_set_of_ne hij v _
  · rw [List.getD_eq_default _ _ (by simpa using Nat.le_of_not_lt hj),
      List.getD_eq_default _ _ (Nat.le_of_not_lt hj)]

theorem length_swapL (a : List Int) (i j : ℕ) : (swapL a i j).length = a.length := by
  simp [swapL]

theorem getD_swap_fst (a : List Int) {i j : ℕ} (hij : i ≠ j) (hi : i < a.length) :
    (swapL a i j).getD i 0 = a.getD j 0 := by
  unfold swapL
  rw [getD_set_ne _ (Ne.symm hij), getD_set_eq _ _ hi]

theorem getD_swap_snd (a : List Int) {i j : ℕ} (hj : j < a.length) :
    (swapL a i j).getD j 0 = a.getD i 0 := by
  unfold swapL
  rw [getD_set_eq _ _ (by simpa using hj)]

theorem getD_swap_other (a : List Int) {i j k : ℕ} (hik : k ≠ i) (hjk : k ≠ j) :
    (swapL a i j).getD k 0 = a.getD k 0 := by
  unfold swapL
  rw [getD_set_ne _ (Ne.symm hjk), getD_set_ne _ (Ne.symm hik)]

theorem count_set_add (a : List Int) {i : ℕ} (v x : Int) (h : i < a.length) :
    (a.set i v).count x + (if a.getD i 0 = x then 1 else 0) =
      a.count x + (if v = x then 1 else 0) := by
  induction a generalizing i with
  | nil => simp at h
  | cons b t ih =>
    cases i with
    | zero =>
      simp only [List.set_cons_zero, List.count_cons, List.getD_cons_zero, beq_iff_eq]
      split_ifs <;> omega
    | succ n =>
      simp only [List.set_cons_succ, List.count_cons, List.getD_cons_succ, beq_iff_eq]
      have ht : n < t.length := by simpa using h
      have := ih ht
      split_ifs at this ⊢ <;> omega

theorem swapL_perm (a : List Int) {i j : ℕ} (hi : i < a.length) (hj : j < a.length) :
    (swapL a i j).Perm a := by
  rw [List.perm_iff_count]
  intro x
  have h1 := count_set_add a (a.getD j 0) x hi
  have h2 := count_set_add (a.set i (a.getD j 0)) (a.getD i 0) x
    (by simpa using hj)
  by_cases hij : i = j
  · subst hij
    rw [getD_set_eq _ _ hi] at h2
    unfold swapL
    split_ifs at h1 h2 <;> omega
  · rw [getD_set_ne _ hij] at h2
    unfold swapL
    split_ifs at h1 h2 <;> omega

theorem drop_set_of_lt (a : List Int) {i n : ℕ} (h : i < n) (v : Int) :
    (a.set i v).drop n = a.drop n := by
  rw [List.drop_set, if_pos h]

theorem drop_swapL (a : List Int) {i j n : ℕ} (hi : i < n) (hj : j < n) :
    (swapL a i j).drop n = a.drop n := by
  unfold swapL
  rw [drop_set_of_lt _ hj, drop_set_of_lt _ hi]

theorem perm_take_of_perm_drop {a b : List Int} {n : ℕ}
    (h1 : a.Perm b) (h2 : a.drop n = b.drop n) : (a.take n).Perm (b.take n) := by
  rw [List.perm_iff_count]
  intro x
  have ha : (a.take n).count x + (a.drop n).count x = a.count x := by
    rw [← List.count_append, List.take_append_drop]
  have hb : (b.take n).count x + (b.drop n).count x = b.count x := by
    rw [← List.count_append, List.take_append_drop]
  have hc := List.perm_iff_count.mp h1 x
  rw [h2] at ha
  omega

theorem swap_take_perm (a : List Int) {i j n : ℕ} (hi : i < n) (hj : j < n)
    (hn : n ≤ a.length) : ((swapL a i j).take n).Perm (a.take n) :=
  perm_take_of_perm_drop
    (swapL_perm a (lt_of_lt_of_le hi hn) (lt_of_lt_of_le hj hn))
    (drop_swapL a hi hj)

theorem take_set_of_le (a : List Int) {i n : ℕ} (h : n ≤ i) (v : Int) :
    (a.set i v).take n = a.take n := by
  apply List.ext_getElem?
  intro m
  rw [List.getElem?_take, List.getElem?_take]
  by_cases hm : m < n
  · rw [if_pos hm, if_pos hm, List.getElem?_set_ne (by omega)]
  · rw [if_neg hm, if_neg hm]

theorem take_set_succ (a : List Int) {n : ℕ} (v : Int) (h : n < a.length) :
    (a.set n v).take (n + 1) = a.take n ++ [v] := by
  rw [List.take_succ, take_set_of_le a (le_refl n), List.getElem?_set_self h]
  rfl

theorem getD_take (a : List Int) {i n : ℕ} (h : i < n) :
    (a.take n).getD i 0 = a.getD i 0 := by
  by_cases hl : i < a.length
  · have hlt : i < (a.take n).length := by
      rw [List.length_take]
      exact lt_min h hl
    rw [List.getD_eq_getElem _ _ hlt, List.getD_eq_getElem _ _ hl, List.getElem_take]
  · rw [List.getD_eq_default, List.getD_eq_default _ _ (Nat.le_of_not_lt hl)]
    rw [List.length_take]
    omega

theorem getD_mem_take (a : List Int) {i n : ℕ} (hi : i < n) (hn : n ≤ a.length) :
    a.getD i 0 ∈ a.take n := by
  rw [List.getD_eq_getElem _ _ (lt_of_lt_of_le hi hn)]
  exact List.mem_take_iff_getElem.mpr ⟨i, lt_min hi (lt_of_lt_of_le hi hn), rfl⟩

theorem mem_take_getD (a : List Int) {x : Int} {n : ℕ} (hx : x ∈ a.take n) :
    ∃ i, i < n ∧ i < a.length ∧ a.getD i 0 = x := by
  obtain ⟨i, hm, hget⟩ := List.mem_take_iff_getElem.mp hx
  have h1 : i < n := lt_of_lt_of_le hm (min_le_left _ _)
  have h2 : i < a.length := lt_of_lt_of_le hm (min_le_right _ _)
  exact ⟨i, h1, h2, by rw [List.getD_eq_getElem _ _ h2, hget]⟩

theorem set_perm_cons_eraseIdx (a : List Int) {i : ℕ} (v : Int) (h : i < a.length) :
    (a.set i v).Perm (v :: a.eraseIdx i) := by
  rw [List.set_eq_take_cons_drop v h, List.eraseIdx_eq_take_drop_succ]
  exact List.perm_middle

theorem self_perm_cons_eraseIdx (a : List Int) {i : ℕ} (h : i < a.length) :
    a.Perm (a.getD i 0 :: a.eraseIdx i) := by
  conv_lhs => rw [← List.take_append_drop i a, List.drop_eq_getElem_cons h]
  rw [List.eraseIdx_eq_take_drop_succ, List.getD_eq_getElem _ _ h]
  exact List.perm_middle

/-! ### Parent / child index arithmetic -/

theorem par_lt {c : ℕ} (hc : 0 < c) : par c < c := by
  unfold par; omega

theorem par_child_l (i : ℕ) : par (2 * i + 1) = i := by
  unfold par; omega

theorem par_child_r (i : ℕ) : par (2 * i + 2) = i := by
  unfold par; omega

theorem child_of_par {c : ℕ} (hc : 0 < c) :
    c = 2 * par c + 1 ∨ c = 2 * par c + 2 := by
  unfold par; omega

/-- Under the invariant, the root bounds every live element. -/
theorem root_max {sz : ℕ} {a : List Int} (hInv : Inv sz a) :
    ∀ i, i < sz → a.getD i 0 ≤ a.getD 0 0 := by
  intro i
  induction i using Nat.strong_induction_on with
  | _ i IH =>
    intro hlt
    rcases Nat.eq_zero_or_pos i with h0 | hpos
    · subst h0; exact le_refl _
    · exact le_trans (hInv i hpos hlt)
        (IH (par i) (par_lt hpos) (lt_trans (par_lt hpos) hlt))

/-! ### `sift_up` lemmas -/

theorem sift_up_length : ∀ (fuel : ℕ) (a : List Int) (i : ℕ),
    (sift_up fuel a i).length = a.length := by
  intro fuel
  induction fuel with
  | zero => intro a i; rfl
  | succ fuel ih =>
    intro a i
    unfold sift_up
    split
    · rw [ih, length_swapL]
    · rfl

theorem sift_up_drop : ∀ (fuel : ℕ) (a : List Int) (i n : ℕ), i < n →
    (sift_up fuel a i).drop n = a.drop n := by
  intro fuel
  induction fuel with
  | zero => intro a i n _; rfl
  | succ fuel ih =>
    intro a i n hin
    unfold sift_up
    split
    next h =>
      rw [ih _ _ n (lt_trans (par_lt h.1) hin), drop_swapL a (lt_trans (par_lt h.1) hin) hin]
    next => rfl

theorem sift_up_perm : ∀ (fuel : ℕ) (a : List Int) (i : ℕ), i < a.length →
    (sift_up fuel a i).Perm a := by
  intro fuel
  induction fuel with
  | zero => intro a i _; exact List.Perm.refl a
  | succ fuel ih =>
    intro a i hi
    unfold sift_up
    split
    next h =>
      have hp : par i < a.length := lt_trans (par_lt h.1) hi
      exact (ih _ _ (by rw [length_swapL]; exact hp)).trans (swapL_perm a hp hi)
    next => exact List.Perm.refl a

theorem sift_up_inv : ∀ (fuel : ℕ) (a : List Int) (i sz : ℕ),
    i < fuel → i < sz → sz ≤ a.length →
    (∀ c, 0 < c → c < sz → c ≠ i → a.getD c 0 ≤ a.getD (par c) 0) →
    (0 < i → ∀ c, 0 < c → c < sz → par c = i → a.getD c 0 ≤ a.getD (par i) 0) →
    Inv sz (sift_up fuel a i) := by
  intro fuel
  induction fuel with
  | zero => intro a i sz hf _ _ _ _; omega
  | succ fuel ih =>
    intro a i sz hf hisz hlen H1 H2
    unfold sift_up
    split
    next hg =>
      obtain ⟨hi0, hvl⟩ := hg
      have hpi : par i < i := par_lt hi0
      have hplen : par i < a.length := lt_of_lt_of_le (lt_trans hpi hisz) hlen
      have hilen : i < a.length := lt_of_lt_of_le hisz hlen
      have swp : (swapL a (par i) i).getD (par i) 0 = a.getD i 0 :=
        getD_swap_fst a (Nat.ne_of_lt hpi) hplen
      have swi : (swapL a (par i) i).getD i 0 = a.getD (par i) 0 :=
        getD_swap_snd a hilen
      apply ih (swapL a (par i) i) (par i) sz (by omega) (lt_trans hpi hisz)
        (by rw [length_swapL]; exact hlen)
      · -- invariant except at the new index (par i)
        intro c hc hcsz hcp
        by_cases hci : c = i
        · subst hci
          rw [swi, swp]
          exact le_of_lt hvl
        · have hcne : (swapL a (par i) i).getD c 0 = a.getD c 0 :=
            getD_swap_other a hcp hci
          by_cases hpc : par c = i
          · rw [hcne, hpc, swi]
            exact H2 hi0 c hc hcsz hpc
          · by_cases hpc2 : par c = par i
            · rw [hcne, hpc2, swp]
              exact le_trans (hpc2 ▸ H1 c hc hcsz hci) (le_of_lt hvl)
            · rw [hcne, getD_swap_other a hpc2 hpc]
              exact H1 c hc hcsz hci
      · -- children of the new index are bounded by its parent
        intro hp0 c hc hcsz hparc
        have hpp : par (par i) < par i := par_lt hp0
        have hppne : par (par i) ≠ par i := Nat.ne_of_lt hpp
        have hppi : par (par i) ≠ i := Nat.ne_of_lt (lt_trans hpp hpi)
        rw [getD_swap_other a hppne hppi]
        by_cases hci : c = i
        · subst hci
          rw [swi]
          exact H1 (par c) hp0 (lt_trans (par_lt hc) hcsz) (Nat.ne_of_lt (par_lt hc))
        · have hcp : c ≠ par i := by
            intro hcp
            rw [hcp] at hparc
            exact absurd hparc (Nat.ne_of_lt (par_lt hp0))
          rw [getD_swap_other a hcp hci]
          exact le_trans (hparc ▸ H1 c hc hcsz hci)
            (H1 (par i) hp0 (lt_trans hpi hisz) (Nat.ne_of_lt hpi))
    next hg =>
      intro c hc hcsz
      by_cases hci : c = i
      · subst hci
        by_contra hlt
        exact hg ⟨hc, lt_of_not_le fun h => hlt h⟩
      · exact H1 c hc hcsz hci

/-! ### `sift_down` lemmas -/

theorem sdTarget_cases (sz : ℕ) (a : List Int) (i : ℕ) :
    sdTarget sz a i = i ∨
      ((sdTarget sz a i = 2 * i + 1 ∨ sdTarget sz a i = 2 * i + 2) ∧
        sdTarget sz a i ≤ sz ∧ a.getD i 0 < a.getD (sdTarget sz a i) 0) := by
  unfold sdTarget
  by_cases h1 : 2 * i + 1 ≤ sz ∧ a.getD i 0 < a.getD (2 * i + 1) 0
  · rw [if_pos h1]
    by_cases h2 : 2 * i + 2 ≤ sz ∧ a.getD (2 * i + 1) 0 < a.getD (2 * i + 2) 0
    · rw [if_pos h2]
      exact Or.inr ⟨Or.inr rfl, h2.1, lt_trans h1.2 h2.2⟩
    · rw [if_neg h2]
      exact Or.inr ⟨Or.inl rfl, h1.1, h1.2⟩
  · rw [if_neg h1]
    by_cases h2 : 2 * i + 2 ≤ sz ∧ a.getD i 0 < a.getD (2 * i + 2) 0
    · rw [if_pos h2]
      exact Or.inr ⟨Or.inr rfl, h2.1, h2.2⟩
    · rw [if_neg h2]
      exact Or.inl rfl

theorem sdTarget_gt {sz : ℕ} {a : List Int} {i : ℕ} (h : sdTarget sz a i ≠ i) :
    (sdTarget sz a i = 2 * i + 1 ∨ sdTarget sz a i = 2 * i + 2) ∧
      sdTarget sz a i ≤ sz ∧ a.getD i 0 < a.getD (sdTarget sz a i) 0 :=
  (sdTarget_cases sz a i).resolve_left h

theorem sdTarget_children_le (sz : ℕ) (a : List Int) (i : ℕ) :
    ∀ c, c ≤ sz → (c = 2 * i + 1 ∨ c = 2 * i + 2) →
      a.getD c 0 ≤ a.getD (sdTarget sz a i) 0 := by
  intro c hcs hc
  unfold sdTarget
  by_cases h1 : 2 * i + 1 ≤ sz ∧ a.getD i 0 < a.getD (2 * i + 1) 0
  · rw [if_pos h1]
    by_cases h2 : 2 * i + 2 ≤ sz ∧ a.getD (2 * i + 1) 0 < a.getD (2 * i + 2) 0
    · rw [if_pos h2]
      rcases hc with hc | hc <;> subst hc
      · exact le_of_lt h2.2
      · exact le_refl _
    · rw [if_neg h2]
      rcases hc with hc | hc <;> subst hc
      · exact le_refl _
      · exact le_of_not_lt fun hlt => h2 ⟨hcs, hlt⟩
  · rw [if_neg h1]
    by_cases h2 : 2 * i + 2 ≤ sz ∧ a.getD i 0 < a.getD (2 * i + 2) 0
    · rw [if_pos h2]
      rcases hc with hc | hc <;> subst hc
      · exact le_of_lt (lt_of_le_of_lt (le_of_not_lt fun hlt => h1 ⟨hcs, hlt⟩) h2.2)
      · exact le_refl _
    · rw [if_neg h2]
      rcases hc with hc | hc <;> subst hc
      · exact le_of_not_lt fun hlt => h1 ⟨hcs, hlt⟩
      · exact le_of_not_lt fun hlt => h2 ⟨hcs, hlt⟩

theorem sdTarget_par {sz : ℕ} {a : List Int} {i : ℕ} (h : sdTarget sz a i ≠ i) :
    par (sdTarget sz a i) = i := by
  rcases (sdTarget_gt h).1 with hc | hc <;> rw [hc]
  · exact par_child_l i
  · exact par_child_r i

/-- The main `sift_down` lemma.  The hypothesis `a.getD sz 0 = a.getD i 0`
states that the slot one past the live range (which the off-by-one guards of
the source do read) holds a copy of the value being sifted; this is exactly
the situation `extract_top` creates, and under it the out-of-range slot can
never win a comparison, so `sift_down` behaves like the intended algorithm:
it restores the max-heap invariant and permutes only the live range. -/
theorem sift_down_spec : ∀ (fuel sz : ℕ) (a : List Int) (i : ℕ),
    sz + 2 ≤ fuel + i → i ≤ sz → sz < a.length →
    a.getD sz 0 = a.getD i 0 →
    (∀ c, 0 < c → c < sz → par c ≠ i → a.getD c 0 ≤ a.getD (par c) 0) →
    (0 < i → ∀ c, 0 < c → c < sz → par c = i → a.getD c 0 ≤ a.getD (par i) 0) →
    Inv sz (sift_down fuel sz a i) ∧
      ((sift_down fuel sz a i).take sz).Perm (a.take sz) ∧
      (sift_down fuel sz a i).drop sz = a.drop sz := by
  intro fuel
  induction fuel with
  | zero => intro sz a i hf hisz _ _ _ _; omega
  | succ fuel ih =>
    intro sz a i hf hisz hlen H3 H1 H2
    unfold sift_down
    split
    next hne =>
      obtain ⟨hchild, hts, hvlt⟩ := sdTarget_gt (Ne.symm hne)
      set t := sdTarget sz a i with hdt
      have hit : i < t := by rcases hchild with hc | hc <;> omega
      have htsz : t < sz := by
        rcases Nat.lt_or_ge t sz with h | h
        · exact h
        · exfalso
          have : t = sz := le_antisymm hts h
          rw [this, H3] at hvlt
          exact lt_irrefl _ hvlt
      have hisz' : i < sz := lt_trans hit htsz
      have hilen : i < a.length := lt_trans hisz' hlen
      have htlen : t < a.length := lt_trans htsz hlen
      have hpt : par t = i := sdTarget_par (Ne.symm hne)
      have sw_i : (swapL a i t).getD i 0 = a.getD t 0 :=
        getD_swap_fst a (Nat.ne_of_lt hit) hilen
      have sw_t : (swapL a i t).getD t 0 = a.getD i 0 := getD_swap_snd a htlen
      have hrec := ih sz (swapL a i t) t (by omega) hts
        (by rw [length_swapL]; exact hlen) ?_ ?_ ?_
      · refine ⟨hrec.1, hrec.2.1.trans (swap_take_perm a hisz' htsz (le_of_lt hlen)),
          hrec.2.2.trans (drop_swapL a hisz' htsz)⟩
      · -- the dead slot still copies the sifted value
        rw [getD_swap_other a (Nat.ne_of_gt hisz') (Nat.ne_of_gt htsz), sw_t, H3]
      · -- invariant except below the new index
        intro c hc hcsz hpct
        by_cases hci : c = i
        · subst hci
          have hpi : par c < c := par_lt hc
          rw [sw_i, getD_swap_other a (Nat.ne_of_lt hpi) (Nat.ne_of_lt (lt_trans hpi hit))]
          exact H2 hc t (by omega) htsz hpt
        · by_cases hct : c = t
          · subst hct
            rw [sw_t, hpt, sw_i]
            exact le_of_lt hvlt
          · rw [getD_swap_other a hci hct]
            by_cases hpc : par c = i
            · rw [hpc, sw_i]
              rcases child_of_par hc with hcc | hcc
              · exact sdTarget_children_le sz a i c (le_of_lt hcsz) (Or.inl (hpc ▸ hcc))
              · exact sdTarget_children_le sz a i c (le_of_lt hcsz) (Or.inr (hpc ▸ hcc))
            · rw [getD_swap_other a hpc hpct]
              exact H1 c hc hcsz hpc
      · -- children of the new index are bounded by its parent (the old index)
        intro _ c hc hcsz hpct
        have hct : t < c := by
          have := par_lt hc
          omega
        rw [hpt, sw_i, getD_swap_other a (show c ≠ i by omega) (show c ≠ t by omega)]
        have hine : par c ≠ i := by rw [hpct]; omega
        have := H1 c hc hcsz hine
        rw [hpct] at this
        exact this
    next hne =>
      have heq : sdTarget sz a i = i := by
        by_contra h
        exact hne (Ne.symm h)
      refine ⟨?_, List.Perm.refl _, rfl⟩
      intro c hc hcsz
      by_cases hpc : par c = i
      · have hle : a.getD c 0 ≤ a.getD (sdTarget sz a i) 0 := by
          rcases child_of_par hc with hcc | hcc
          · exact sdTarget_children_le sz a i c (le_of_lt hcsz) (Or.inl (hpc ▸ hcc))
          · exact sdTarget_children_le sz a i c (le_of_lt hcsz) (Or.inr (hpc ▸ hcc))
        rw [heq] at hle
        rw [hpc]
        exact hle
      · exact H1 c hc hcsz hpc

theorem sift_down_length : ∀ (fuel sz : ℕ) (a : List Int) (i : ℕ),
    (sift_down fuel sz a i).length = a.length := by
  intro fuel
  induction fuel with
  | zero => intro sz a i; rfl
  | succ fuel ih =>
    intro sz a i
    unfold sift_down
    split
    · rw [ih, length_swapL]
    · rfl

/-- The prefix shuffle performed by `extract_top` before sifting: popping the
root and moving the last live element onto it is a permutation of the old live
range once the popped root is put back on top. -/
theorem cons_take_set_perm (a : List Int) {n : ℕ} (hpos : 0 < n) (hlen : n ≤ a.length) :
    ((a.getD 0 0) :: ((a.set 0 (a.getD (n - 1) 0)).take (n - 1))).Perm (a.take n) := by
  cases a with
  | nil => simp at hlen; omega
  | cons x t =>
    rcases Nat.lt_or_ge n 2 with hn | hn
    · have hn1 : n = 1 := by omega
      subst hn1
      simp
    · obtain ⟨m, rfl⟩ : ∃ m, n = m + 2 := ⟨n - 2, by omega⟩
      have hmt : m < t.length := by simpa using hlen
      have hv : (x :: t).getD (m + 2 - 1) 0 = t.getD m 0 := by
        rw [show m + 2 - 1 = m + 1 from rfl, List.getD_cons_succ]
      rw [hv]
      have hset : (x :: t).set 0 (t.getD m 0) = t.getD m 0 :: t := rfl
      rw [hset]
      have htake : (t.getD m 0 :: t).take (m + 2 - 1) = t.getD m 0 :: t.take m := by
        rw [show m + 2 - 1 = m + 1 from rfl, List.take_succ_cons]
      rw [htake]
      have hrhs : (x :: t).take (m + 2) = x :: (t.take m ++ [t.getD m 0]) := by
        rw [List.take_succ_cons, List.take_succ, List.getD_eq_getElem _ _ hmt,
          List.getElem?_eq_getElem hmt]
        rfl
      rw [hrhs, List.getD_cons_zero]
      exact (List.perm_append_singleton _ _).symm.cons x

/-! ### Operation-level specifications -/

theorem insert_spec (h : State) (v : Int) (hg : Good h) (hlt : h.size < h.sizeMax) :
    (insert h v).1 = none ∧
      (insert h v).2.sizeMax = h.sizeMax ∧
      (insert h v).2.size = h.size + 1 ∧
      Good (insert h v).2 ∧
      (live (insert h v).2).Perm (v :: live h) := by
  obtain ⟨hlen, hsz, hInv⟩ := hg
  have hne : h.size ≠ h.sizeMax := Nat.ne_of_lt hlt
  have hstep : insert h v =
      (none, ⟨h.sizeMax, h.size + 1,
        sift_up (h.size + 1) (h.heap.set h.size v) h.size⟩) := by
    unfold insert
    rw [if_neg hne]
    rfl
  rw [hstep]
  have hlen1 : (h.heap.set h.size v).length = h.sizeMax := by
    rw [List.length_set]; exact hlen
  have hszlen : h.size < h.heap.length := by omega
  refine ⟨rfl, rfl, rfl, ⟨?_, show h.size + 1 ≤ h.sizeMax by omega, ?_⟩, ?_⟩
  · -- length preserved
    show (sift_up (h.size + 1) (h.heap.set h.size v) h.size).length = h.sizeMax
    rw [sift_up_length, hlen1]
  · -- invariant
    apply sift_up_inv (h.size + 1) (h.heap.set h.size v) h.size (h.size + 1)
      (by omega) (by omega) (by omega)
    · intro c hc hcsz hci
      have hclt : c < h.size := by omega
      have hpi : par c < c := par_lt hc
      rw [getD_set_ne _ (by omega) v, getD_set_ne _ (by omega) v]
      exact hInv c hc hclt
    · intro h0 c hc hcsz hpc
      exfalso
      have := par_lt hc
      omega
  · -- live multiset
    show ((sift_up (h.size + 1) (h.heap.set h.size v) h.size).take (h.size + 1)).Perm
      (v :: h.heap.take h.size)
    have hperm : (sift_up (h.size + 1) (h.heap.set h.size v) h.size).Perm
        (h.heap.set h.size v) :=
      sift_up_perm _ _ _ (by omega)
    have hdrop := sift_up_drop (h.size + 1) (h.heap.set h.size v) h.size (h.size + 1)
      (by omega)
    have htk := perm_take_of_perm_drop hperm hdrop
    rw [take_set_succ h.heap v hszlen] at htk
    exact htk.trans (List.perm_append_singleton v _)

theorem extract_spec (h : State) (hg : Good h) (hpos : 0 < h.size) :
    (extract_top h).2.sizeMax = h.sizeMax ∧
      (extract_top h).2.size = h.size - 1 ∧
      Good (extract_top h).2 ∧
      ((extract_top h).1 :: live (extract_top h).2).Perm (live h) ∧
      (∀ x ∈ live h, x ≤ (extract_top h).1) := by
  obtain ⟨hlen, hsz, hInv⟩ := hg
  have hszlen : h.size - 1 < h.heap.length := by omega
  have hsd := sift_down_spec (h.size - 1 + 2) (h.size - 1)
    (h.heap.set 0 (h.heap.getD (h.size - 1) 0)) 0
    (by omega) (by omega) (by rw [List.length_set]; omega) ?_ ?_ ?_
  · refine ⟨rfl, rfl, ⟨?_, show h.size - 1 ≤ h.sizeMax by omega, hsd.1⟩, ?_, ?_⟩
    · show (sift_down _ _ _ 0).length = h.sizeMax
      rw [sift_down_length, List.length_set, hlen]
    · show ((h.heap.getD 0 0) :: (sift_down _ _ _ 0).take (h.size - 1)).Perm
        (h.heap.take h.size)
      exact (hsd.2.1.cons _).trans (cons_take_set_perm h.heap hpos (by omega))
    · intro x hx
      obtain ⟨i, hi, hil, hgd⟩ := mem_take_getD h.heap hx
      show x ≤ h.heap.getD 0 0
      rw [← hgd]
      exact root_max hInv i hi
  · -- the dead slot copies the sifted value
    by_cases hone : h.size = 1
    · rw [hone]
    · rw [getD_set_ne _ (by omega) _, getD_set_eq _ _ (by omega)]
  · -- invariant away from the root
    intro c hc hcsz hpc
    rw [getD_set_ne _ (by omega) _, getD_set_ne _ (by omega) _]
    exact hInv c hc (by omega)
  · intro h0
    exact absurd h0 (lt_irrefl 0)

theorem take_set_of_lt (a : List Int) {i n : ℕ} (h : i < n) (v : Int) :
    (a.set i v).take n = (a.take n).set i v := by
  apply List.ext_getElem?
  intro m
  by_cases hm : m < n
  · by_cases him : i = m
    · subst him
      rw [List.getElem?_take, if_pos hm, List.getElem?_set, if_pos rfl,
        List.getElem?_set, if_pos rfl, List.length_take]
      by_cases hil : i < a.length
      · rw [if_pos hil, if_pos (lt_min hm hil)]
      · rw [if_neg hil, if_neg (by rw [Nat.lt_min]; exact fun hx => hil hx.2)]
    · rw [List.getElem?_take, if_pos hm, List.getElem?_set_ne him,
        List.getElem?_set_ne him, List.getElem?_take, if_pos hm]
  · have him : i ≠ m := by omega
    rw [List.getElem?_take, if_neg hm, List.getElem?_set_ne him,
      List.getElem?_take, if_neg hm]

theorem remove_spec (h : State) (index : ℕ) (hg : Good h) (hidx : index < h.size)
    (hb : ∀ x ∈ live h, x < INT_MAX) :
    (remove h index).sizeMax = h.sizeMax ∧
      (remove h index).size = h.size - 1 ∧
      Good (remove h index) ∧
      ((h.heap.getD index 0) :: live (remove h index)).Perm (live h) := by
  obtain ⟨hlen, hsz, hInv⟩ := hg
  have hidxlen : index < h.heap.length := by omega
  have hlen1 : (h.heap.set index INT_MAX).length = h.heap.length :=
    List.length_set h.heap index INT_MAX
  have hg1 : Good ⟨h.sizeMax, h.size,
      sift_up (index + 1) (h.heap.set index INT_MAX) index⟩ := by
    refine ⟨?_, hsz, ?_⟩
    · show (sift_up (index + 1) (h.heap.set index INT_MAX) index).length = h.sizeMax
      rw [sift_up_length, hlen1, hlen]
    · apply sift_up_inv (index + 1) (h.heap.set index INT_MAX) index h.size
        (by omega) hidx (by omega)
      · intro c hc hcsz hci
        rw [getD_set_ne h.heap (Ne.symm hci) INT_MAX]
        by_cases hpc : par c = index
        · rw [hpc, getD_set_eq h.heap INT_MAX hidxlen]
          exact le_of_lt (hb _ (getD_mem_take h.heap hcsz (by omega)))
        · rw [getD_set_ne h.heap (fun he => hpc he.symm) INT_MAX]
          exact hInv c hc hcsz
      · intro h0 c hc hcsz hpc
        have hcgt : index < c := by have := par_lt hc; omega
        have hpne : par index < index := par_lt h0
        rw [getD_set_ne h.heap (by omega) INT_MAX,
          getD_set_ne h.heap (by omega) INT_MAX]
        exact (hpc ▸ hInv c hc hcsz).trans (hInv index h0 hidx)
  have hlive1 : (live ⟨h.sizeMax, h.size,
      sift_up (index + 1) (h.heap.set index INT_MAX) index⟩).Perm
      ((live h).set index INT_MAX) := by
    show ((sift_up (index + 1) (h.heap.set index INT_MAX) index).take h.size).Perm _
    have hperm := sift_up_perm (index + 1) (h.heap.set index INT_MAX) index
      (by rw [hlen1]; omega)
    have hdrop := sift_up_drop (index + 1) (h.heap.set index INT_MAX) index h.size hidx
    have htk := perm_take_of_perm_drop hperm hdrop
    rw [take_set_of_lt h.heap hidx INT_MAX] at htk
    exact htk
  have hlivelen : (live h).length = h.size := by
    rw [live, List.length_take]; omega
  have he := extract_spec ⟨h.sizeMax, h.size,
      sift_up (index + 1) (h.heap.set index INT_MAX) index⟩ hg1 (show 0 < h.size by omega)
  have htM : (extract_top ⟨h.sizeMax, h.size,
      sift_up (index + 1) (h.heap.set index INT_MAX) index⟩).1 = INT_MAX := by
    have hMin : INT_MAX ∈ live ⟨h.sizeMax, h.size,
        sift_up (index + 1) (h.heap.set index INT_MAX) index⟩ :=
      hlive1.mem_iff.mpr (List.mem_set (live h) index (by omega) INT_MAX)
    have ht_in : (extract_top ⟨h.sizeMax, h.size,
        sift_up (index + 1) (h.heap.set index INT_MAX) index⟩).1 ∈
        live ⟨h.sizeMax, h.size, sift_up (index + 1) (h.heap.set index INT_MAX) index⟩ := by
      show (sift_up (index + 1) (h.heap.set index INT_MAX) index).getD 0 0 ∈ _
      exact getD_mem_take _ (show 0 < h.size by omega)
        (show h.size ≤ (sift_up (index + 1) (h.heap.set index INT_MAX) index).length by
          rw [sift_up_length, hlen1]; omega)
    have hle : (extract_top ⟨h.sizeMax, h.size,
        sift_up (index + 1) (h.heap.set index INT_MAX) index⟩).1 ≤ INT_MAX := by
      rcases List.mem_or_eq_of_mem_set (hlive1.mem_iff.mp ht_in) with hin | heq
      · exact le_of_lt (hb _ hin)
      · exact le_of_eq heq
    exact le_antisymm hle (he.2.2.2.2 INT_MAX hMin)
  have hrm : remove h index = (extract_top ⟨h.sizeMax, h.size,
      sift_up (index + 1) (h.heap.set index INT_MAX) index⟩).2 := rfl
  rw [hrm]
  refine ⟨he.1, he.2.1, he.2.2.1, ?_⟩
  have hmain := he.2.2.2.1
  rw [htM] at hmain
  have h4 := hmain.trans (hlive1.trans (set_perm_cons_eraseIdx (live h) INT_MAX (by omega)))
  have h5 := h4.cons_inv
  have h6 := self_perm_cons_eraseIdx (live h) (show index < (live h).length by omega)
  simp only [live] at h6
  rw [getD_take h.heap hidx] at h6
  exact (h5.cons (h.heap.getD index 0)).trans h6.symm

theorem mkHeap_good (cap : ℕ) : Good (mkHeap cap) := by
  refine ⟨by simp [mkHeap], by simp [mkHeap], ?_⟩
  intro c hc h0
  simp [mkHeap] at h0

theorem insertAll_spec : ∀ (vs : List Int) (h : State), Good h →
    h.size + vs.length ≤ h.sizeMax →
    Good (insertAll h vs) ∧
      (insertAll h vs).sizeMax = h.sizeMax ∧
      (insertAll h vs).size = h.size + vs.length ∧
      (live (insertAll h vs)).Perm (vs ++ live h) := by
  intro vs
  induction vs with
  | nil =>
    intro h hg _
    exact ⟨hg, rfl, by simp [insertAll], by simp [insertAll]⟩
  | cons v vs ih =>
    intro h hg hcap
    have hi := insert_spec h v hg (by simp at hcap; omega)
    have hstep : insertAll h (v :: vs) = insertAll (insert h v).2 vs := rfl
    rw [hstep]
    have hx := ih (insert h v).2 hi.2.2.2.1
      (by rw [hi.2.2.1, hi.2.1]; simp at hcap ⊢; omega)
    refine ⟨hx.1, by rw [hx.2.1, hi.2.1], by rw [hx.2.2.1, hi.2.2.1]; simp; omega, ?_⟩
    have h2 : (vs ++ live (insert h v).2).Perm (vs ++ (v :: live h)) :=
      (hi.2.2.2.2).append_left vs
    have h3 : (vs ++ (v :: live h)).Perm ((v :: vs) ++ live h) := List.perm_middle
    exact (hx.2.2.2.trans h2).trans h3

theorem extractN_spec : ∀ (n : ℕ) (h : State), Good h → n = h.size →
    Good (extractN h n).2 ∧
      (extractN h n).2.size = 0 ∧
      ((extractN h n).1).Perm (live h) ∧
      List.Sorted (· ≥ ·) (extractN h n).1 := by
  intro n
  induction n with
  | zero =>
    intro h hg h0
    refine ⟨hg, h0.symm, ?_, by simp [extractN]⟩
    show ([] : List Int).Perm (live h)
    rw [live, ← h0]
    simp
  | succ n ih =>
    intro h hg hsz
    have hpos : 0 < h.size := by omega
    have he := extract_spec h hg hpos
    have hx := ih (extract_top h).2 he.2.2.1 (by rw [he.2.1]; omega)
    have hstep : extractN h (n + 1) =
        ((extract_top h).1 :: (extractN (extract_top h).2 n).1,
          (extractN (extract_top h).2 n).2) := rfl
    rw [hstep]
    refine ⟨hx.1, hx.2.1, ?_, ?_⟩
    · exact (hx.2.2.1.cons _).trans he.2.2.2.1
    · rw [List.sorted_cons]
      refine ⟨?_, hx.2.2.2⟩
      intro b hb
      have hbl : b ∈ live (extract_top h).2 := (hx.2.2.1.mem_iff).mp hb
      have hbh : b ∈ live h := he.2.2.2.1.mem_iff.mp (List.mem_cons_of_mem _ hbl)
      exact he.2.2.2.2 b hbh

/-! ### `find` lemmas -/

theorem findFrom_spec : ∀ (k i : ℕ) (h : State) (v : Int), i + k = h.size →
    ((∀ j, i ≤ j → j < h.size → h.heap.getD j 0 ≠ v) → findFrom h v i k = -1) ∧
      (∀ j, i ≤ j → j < h.size → h.heap.getD j 0 = v →
        (∀ l, i ≤ l → l < j → h.heap.getD l 0 ≠ v) → findFrom h v i k = (j : Int)) := by
  intro k
  induction k with
  | zero =>
    intro i h v hik
    refine ⟨fun _ => rfl, fun j hij hjs _ _ => ?_⟩
    omega
  | succ k ih =>
    intro i h v hik
    constructor
    · intro hnone
      have hi : h.heap.getD i 0 ≠ v := hnone i (le_refl i) (by omega)
      show (if h.heap.getD i 0 = v then (i : Int) else findFrom h v (i + 1) k) = -1
      rw [if_neg hi]
      exact (ih (i + 1) h v (by omega)).1 fun j hj hjs => hnone j (by omega) hjs
    · intro j hij hjs hjv hmin
      show (if h.heap.getD i 0 = v then (i : Int) else findFrom h v (i + 1) k) = (j : Int)
      by_cases hi : h.heap.getD i 0 = v
      · rw [if_pos hi]
        have hji : j = i := by
          by_contra hne
          exact hmin i (le_refl i) (by omega) hi
        rw [hji]
      · rw [if_neg hi]
        have hji : i + 1 ≤ j := by
          rcases Nat.lt_or_ge i j with hlt | hge
          · omega
          · exfalso; exact hi (le_antisymm hge hij ▸ hjv)
        exact (ih (i + 1) h v (by omega)).2 j hji hjs hjv
          fun l hl hlj => hmin l (by omega) hlj

end binary_heap

/-- C1 (failing input): after the in-capacity call sequence `binary_heap(4)`;
`insert 0`; `insert 1`; `insert 2`; `insert 2`; `remove 3`; `extract_top`;
`insert 0`; `change_priority 0 0` — every insert into a non-full heap, every
extraction from a non-empty heap, every index inside `[0, count)` — the live
range is `[1, 2, 0]`, so the root `1` is smaller than its left child `2`
(child index `1 = 2*0+1 < count = 3`): the max-heap invariant is violated. -/
theorem c1_invariant_violation :
    binary_heap.c1Trace.size = 3 ∧
    binary_heap.c1Trace.heap.getD 0 0 = 1 ∧
    binary_heap.c1Trace.heap.getD 1 0 = 2 ∧
    ¬ binary_heap.Inv binary_heap.c1Trace.size binary_heap.c1Trace.heap := by
  refine ⟨by decide, by decide, by decide, fun hInv => ?_⟩
  have h1 := hInv 1 (by decide) (by decide)
  revert h1
  decide

/-- C4 (failing input): `c4Pre = binary_heap(2)`; `insert 5`; `insert 4`;
`extract_top` is a well-formed heap of count 1 with live range `[4]` (and a
stale `4` at the dead slot 1).  `change_priority(0, 3)` should leave the live
multiset `{3}` (old `4` removed, `3` added, count unchanged), but the code's
`sift_down` compares against the dead slot `1 ≤ count` of value `4`, swaps the
freshly written `3` out of the live range and pulls the stale `4` back in: the
live multiset afterwards is `{4}`, not `{3}`. -/
theorem c4_change_priority_corrupts :
    binary_heap.c4Pre.size = 1 ∧
    binary_heap.Inv binary_heap.c4Pre.size binary_heap.c4Pre.heap ∧
    binary_heap.c4Pre.heap.getD 0 0 = 4 ∧
    binary_heap.c4Trace.size = 1 ∧
    binary_heap.live binary_heap.c4Trace = [4] ∧
    ¬ (binary_heap.live binary_heap.c4Trace).Perm [3] := by
  refine ⟨by decide, fun c hc hlt => ?_, by decide, by decide, by decide, by decide⟩
  have : binary_heap.c4Pre.size = 1 := by decide
  omega

/-- C3 (failing input): in the state `c4Pre` (count 1, live range `[3]` after
the overwrite performed by `change_priority(0, 3)`), `sift_down(0)` reads the
slot at index `1 = count` — an index not strictly less than count — because the
source guard is `child_l <= size()`; it then swaps with that non-existent
child, producing `[4, 3]` instead of leaving `[3, 4]` untouched, so the
subsequent `top()` returns `4`. -/
theorem c3_sift_down_reads_at_count :
    (1 : ℕ) ∈ binary_heap.sift_down_reads 3 1 [3, 4] 0 ∧
    binary_heap.sift_down 3 1 [3, 4] 0 = [4, 3] ∧
    binary_heap.top binary_heap.c4Trace = 4 := by
  decide

/-- C7 (failing input): the sequence constructor on `[3,1,4,1,5]` sets
`capacity = count = 5` and its `build_heap` loop runs `sift_down(i)` for
`i = 5/2 = 2` down to `0`; the very first iteration `sift_down(2)` evaluates
`_heap[5]` (`child_l = 5 ≤ size() = 5`), an index outside `[0, 5)` — in the
C++ this is a read past the end of the 5-element vector.  The remaining
assertions of the claim do hold on the model: `top()` is `5` without any
`insert`. -/
theorem c7_build_heap_reads_out_of_range :
    (binary_heap.build_heap [3, 1, 4, 1, 5]).sizeMax = 5 ∧
    (binary_heap.build_heap [3, 1, 4, 1, 5]).size = 5 ∧
    binary_heap.top (binary_heap.build_heap [3, 1, 4, 1, 5]) = 5 ∧
    (5 : ℕ) ∈ binary_heap.buildFrom_reads 5 [3, 1, 4, 1, 5] 2 := by
  decide

/-- C6: `insert` throws `HeapFull` exactly when `count == capacity`; on a
throw the state is unchanged; otherwise it writes the value at index `count`,
increments `count`, and sifts that element up. -/
theorem c6_insert_full_iff :
    ∀ (h : binary_heap.State) (v : Int),
      ((binary_heap.insert h v).1 = some binary_heap.Err.full ↔ h.size = h.sizeMax) ∧
      (h.size = h.sizeMax → (binary_heap.insert h v).2 = h) ∧
      (h.size ≠ h.sizeMax →
        (binary_heap.insert h v).2 =
          ⟨h.sizeMax, h.size + 1,
            binary_heap.sift_up (h.size + 1) (h.heap.set h.size v) h.size⟩) := by
  intro h v
  unfold binary_heap.insert
  by_cases hc : h.size = h.sizeMax <;> simp [hc]

/-- Witness for C6 at concrete inputs: inserting into the full heap
`binary_heap(0)` leaves it unchanged, and inserting into `binary_heap(1)`
writes at index 0 and increments the count. -/
theorem c6_insert_full_iff_witness :
    (binary_heap.insert (binary_heap.mkHeap 0) 7).2 = binary_heap.mkHeap 0 ∧
    (binary_heap.insert (binary_heap.mkHeap 1) 7).2 =
      ⟨1, 1, binary_heap.sift_up 1 ((binary_heap.mkHeap 1).heap.set 0 7) 0⟩ :=
  ⟨(c6_insert_full_iff (binary_heap.mkHeap 0) 7).2.1 rfl,
   (c6_insert_full_iff (binary_heap.mkHeap 1) 7).2.2 (by decide)⟩

/-- C9: on any heap whose vector still has the `capacity ≥ 1` elements the
constructor `binary_heap(capacity)` allocated, calling `top()` while
`count = 0` raises nothing (`top` has no emptiness check and, being `const`,
mutates nothing) and reads in bounds: slot `0` exists and `top()` returns
exactly its current content; on the freshly constructed heap that content is
the value-initialised `0`. -/
theorem c9_top_on_empty_heap :
    ∀ cap : ℕ, 1 ≤ cap →
      (∀ h : binary_heap.State, h.sizeMax = cap → h.heap.length = h.sizeMax →
        h.size = 0 →
        (binary_heap.top_run h).1 = none ∧
          0 < h.heap.length ∧
          binary_heap.top h = h.heap.getD 0 0) ∧
      (binary_heap.mkHeap cap).size = 0 ∧
      binary_heap.top (binary_heap.mkHeap cap) = (binary_heap.mkHeap cap).heap.getD 0 0 ∧
      binary_heap.top (binary_heap.mkHeap cap) = 0 := by
  intro cap hc
  refine ⟨fun h hcap hlen _ => ⟨rfl, by omega, rfl⟩, rfl, rfl, ?_⟩
  have hl : (0 : ℕ) < (binary_heap.mkHeap cap).heap.length := by
    simpa [binary_heap.mkHeap] using hc
  simp [binary_heap.top, binary_heap.mkHeap, List.getD_eq_getElem _ _ hl]

/-- Witness for C9 at `capacity = 1`, on the freshly constructed heap. -/
theorem c9_top_on_empty_heap_witness :
    ((binary_heap.top_run (binary_heap.mkHeap 1)).1 = none ∧
      0 < (binary_heap.mkHeap 1).heap.length ∧
      binary_heap.top (binary_heap.mkHeap 1) = (binary_heap.mkHeap 1).heap.getD 0 0) ∧
    binary_heap.top (binary_heap.mkHeap 1) = 0 :=
  ⟨(c9_top_on_empty_heap 1 (by decide)).1 (binary_heap.mkHeap 1) rfl (by decide) rfl,
   (c9_top_on_empty_heap 1 (by decide)).2.2.2⟩

/-- C2: for every capacity `cap` and every list `vs` of at most `cap` values,
inserting the values of `vs` into `binary_heap(cap)` and then calling
`extract_top` `vs.length` times returns exactly the inserted values
(as a multiset) in non-increasing order; in particular for `binary_heap(5)`
after inserting `3, 1, 4, 1, 5` in order, `top()` returns `5`, the five
extractions return `5, 4, 3, 1, 1`, and `empty()` is then true. -/
theorem c2_insert_extract_sorted :
    (∀ (cap : ℕ) (vs : List Int), vs.length ≤ cap →
      ((binary_heap.extractN (binary_heap.insertAll (binary_heap.mkHeap cap) vs)
          vs.length).1).Perm vs ∧
        List.Sorted (· ≥ ·)
          (binary_heap.extractN (binary_heap.insertAll (binary_heap.mkHeap cap) vs)
            vs.length).1) ∧
    binary_heap.top (binary_heap.insertAll (binary_heap.mkHeap 5) [3, 1, 4, 1, 5]) = 5 ∧
    (binary_heap.extractN (binary_heap.insertAll (binary_heap.mkHeap 5) [3, 1, 4, 1, 5])
      5).1 = [5, 4, 3, 1, 1] ∧
    binary_heap.empty
      (binary_heap.extractN (binary_heap.insertAll (binary_heap.mkHeap 5) [3, 1, 4, 1, 5])
        5).2 = true := by
  refine ⟨?_, by decide, by decide, by decide⟩
  intro cap vs hlen
  have hins := binary_heap.insertAll_spec vs (binary_heap.mkHeap cap)
    (binary_heap.mkHeap_good cap) (by simpa [binary_heap.mkHeap] using hlen)
  have hext := binary_heap.extractN_spec vs.length
    (binary_heap.insertAll (binary_heap.mkHeap cap) vs) hins.1
    (by rw [hins.2.2.1]; simp [binary_heap.mkHeap])
  refine ⟨hext.2.2.1.trans ?_, hext.2.2.2⟩
  have : binary_heap.live (binary_heap.mkHeap cap) = [] := by
    simp [binary_heap.live, binary_heap.mkHeap]
  exact hins.2.2.2.trans (by rw [this, List.append_nil])

/-- Witness for C2: the general statement applied to `capacity = 5` and the
values `3, 1, 4, 1, 5`. -/
theorem c2_insert_extract_sorted_witness :
    ((binary_heap.extractN (binary_heap.insertAll (binary_heap.mkHeap 5) [3, 1, 4, 1, 5])
        5).1).Perm [3, 1, 4, 1, 5] ∧
      List.Sorted (· ≥ ·)
        (binary_heap.extractN (binary_heap.insertAll (binary_heap.mkHeap 5) [3, 1, 4, 1, 5])
          5).1 := by
  have := c2_insert_extract_sorted.1 5 [3, 1, 4, 1, 5] (by decide)
  simpa using this

/-- C5: on a heap satisfying the max-heap invariant, for `0 ≤ index < count`,
when every live element is a genuine `int` (`≤ INT_MAX`) and none equals the
sentinel `INT_MAX`, `remove(index)` overwrites slot `index` with the sentinel,
sifts it up and extracts the top (first conjunct, the implementation);
afterwards the count has dropped by one, the invariant (within `Good`) is
preserved, and the live multiset is the old one minus one occurrence of the
removed element (last conjunct: removed element consed back yields a
permutation of the old live range). -/
theorem c5_remove_deletes :
    ∀ (h : binary_heap.State) (index : ℕ),
      binary_heap.Good h → index < h.size →
      (∀ x ∈ binary_heap.live h, x ≤ binary_heap.INT_MAX) →
      (∀ x ∈ binary_heap.live h, x ≠ binary_heap.INT_MAX) →
      binary_heap.remove h index =
        (binary_heap.extract_top ⟨h.sizeMax, h.size,
          binary_heap.sift_up (index + 1)
            (h.heap.set index binary_heap.INT_MAX) index⟩).2 ∧
      (binary_heap.remove h index).sizeMax = h.sizeMax ∧
      (binary_heap.remove h index).size = h.size - 1 ∧
      binary_heap.Good (binary_heap.remove h index) ∧
      ((h.heap.getD index 0) ::
          binary_heap.live (binary_heap.remove h index)).Perm (binary_heap.live h) := by
  intro h index hg hidx hle hne
  have hb : ∀ x ∈ binary_heap.live h, x < binary_heap.INT_MAX := fun x hx =>
    lt_of_le_of_ne (hle x hx) (hne x hx)
  have hr := binary_heap.remove_spec h index hg hidx hb
  exact ⟨rfl, hr.1, hr.2.1, hr.2.2.1, hr.2.2.2⟩

/-- Witness for C5: removing index 1 from the valid max-heap
`(capacity 3, count 3, storage [3, 1, 2])` yields count 2, a good heap, and
live multiset `{3, 2}` (i.e. `1` consed back is a permutation of `[3,1,2]`). -/
theorem c5_remove_deletes_witness :
    (binary_heap.remove ⟨3, 3, [3, 1, 2]⟩ 1).size = 3 - 1 ∧
      binary_heap.Good (binary_heap.remove ⟨3, 3, [3, 1, 2]⟩ 1) ∧
      ((([3, 1, 2] : List Int).getD 1 0) ::
          binary_heap.live (binary_heap.remove ⟨3, 3, [3, 1, 2]⟩ 1)).Perm
        (binary_heap.live ⟨3, 3, [3, 1, 2]⟩) := by
  have hg : binary_heap.Good ⟨3, 3, [3, 1, 2]⟩ := by
    refine ⟨rfl, by decide, ?_⟩
    show binary_heap.Inv 3 [3, 1, 2]
    intro c hc hlt
    have hc2 : c = 1 ∨ c = 2 := by omega
    rcases hc2 with rfl | rfl <;> decide
  have hr := c5_remove_deletes ⟨3, 3, [3, 1, 2]⟩ 1 hg (by decide) (by decide) (by decide)
  exact ⟨hr.2.2.1, hr.2.2.2.1, hr.2.2.2.2⟩

/-- C8: `find(value)` scans the live range `[0, count)` in increasing index
order: it never throws, returns `-1` on the empty heap, returns `-1` when no
live slot holds `value`, and otherwise returns the smallest live index whose
slot equals `value`. -/
theorem c8_find_first_or_neg :
    ∀ (h : binary_heap.State) (v : Int),
      (binary_heap.find_run h v).1 = none ∧
      (h.size = 0 → binary_heap.find h v = -1) ∧
      ((∀ j, j < h.size → h.heap.getD j 0 ≠ v) → binary_heap.find h v = -1) ∧
      (∀ j, j < h.size → h.heap.getD j 0 = v →
        (∀ l, l < j → h.heap.getD l 0 ≠ v) → binary_heap.find h v = (j : Int)) := by
  intro h v
  have hs := binary_heap.findFrom_spec h.size 0 h v (by omega)
  refine ⟨rfl, ?_, ?_, ?_⟩
  · intro h0
    exact hs.1 fun j _ hj => absurd hj (by omega)
  · intro hnone
    exact hs.1 fun j _ hj => hnone j hj
  · intro j hj hjv hmin
    exact hs.2 j (Nat.zero_le j) hj hjv fun l _ hl => hmin l hl

/-- Witness for C8: on the heap `(capacity 3, count 2, storage [5, 4, 0])`,
`find 4` returns index `1` and `find 7` returns `-1`; on an empty heap
`find 4` returns `-1`, and none of these calls throws. -/
theorem c8_find_first_or_neg_witness :
    (binary_heap.find_run ⟨3, 2, [5, 4, 0]⟩ 4).1 = none ∧
      binary_heap.find ⟨3, 2, [5, 4, 0]⟩ 4 = 1 ∧
      binary_heap.find ⟨3, 2, [5, 4, 0]⟩ 7 = -1 ∧
      binary_heap.find (binary_heap.mkHeap 3) 4 = -1 := by
  refine ⟨(c8_find_first_or_neg ⟨3, 2, [5, 4, 0]⟩ 4).1, ?_, ?_, ?_⟩
  · exact (c8_find_first_or_neg ⟨3, 2, [5, 4, 0]⟩ 4).2.2.2 1 (by decide) (by decide)
      (by decide)
  · exact (c8_find_first_or_neg ⟨3, 2, [5, 4, 0]⟩ 7).2.2.1 (by decide)
  · exact (c8_find_first_or_neg (binary_heap.mkHeap 3) 4).2.1 rfl

/-- C10: `insert` is the only public operation that can throw — `remove` and
`change_priority` perform no bounds check and throw for no `int` index
(negative or `≥ count` included), `top`, `extract_top` and `find` never throw
(in particular not on an empty heap), and `insert` throws precisely when
`count == capacity`.  The only error type in the code is the heap-full
`std::runtime_error`. -/
theorem c10_only_insert_throws :
    ∀ (h : binary_heap.State) (i p v : Int),
      (binary_heap.remove_run h i).1 = none ∧
      (binary_heap.change_priority_run h i p).1 = none ∧
      (binary_heap.top_run h).1 = none ∧
      (binary_heap.extract_top_run h).1 = none ∧
      (binary_heap.find_run h v).1 = none ∧
      ((binary_heap.insert h v).1.isSome = (h.size == h.sizeMax)) := by
  intro h i p v
  refine ⟨rfl, rfl, rfl, rfl, rfl, ?_⟩
  unfold binary_heap.insert
  by_cases hc : h.size = h.sizeMax <;> simp [hc]
